import Mathlib

/-!
Shallow embedding of the b0_mapping repository (files `b0_map.py`, `print3d.py`)
over exact rational arithmetic.

The Python sources use numpy floating point; here every quantity is a rational
number, so `np.arange(start, stop, step)` is embedded by its exact semantics:
the list `start + k * step` for `0 ≤ k < max 0 ⌈(stop - start) / step⌉`.

`np.lexsort((x, y, z))` is a stable sort whose primary key is the last listed
key `z`, then `y`, then `x`; it is embedded as a stable insertion sort by the
lexicographic order on `(z, y, x)`.

`np.sqrt(s) <= r` (with `s` a sum of squares, hence nonnegative) is embedded by
the equivalent decidable predicate `0 ≤ r ∧ s ≤ r ^ 2`; the lemma
`radialLe_iff_sqrt` below proves the equivalence against `Real.sqrt`.
-/

namespace B0

/-- A sample point `(x, y, z)` in the magnet frame, in millimetres. -/
abbrev Point3 := ℚ × ℚ × ℚ

@[reducible] instance (priority := 2000) pointBEq : BEq Point3 :=
  instBEqOfDecidableEq

@[reducible] instance (priority := 2000) pointLawfulBEq : LawfulBEq Point3 where
  eq_of_beq := of_decide_eq_true
  rfl := of_decide_eq_self_eq_true _

/-- Exact semantics of `np.arange`: number of emitted elements,
`max 0 ⌈(stop - start) / step⌉`. -/
def arangeLen (start stop step : ℚ) : ℕ :=
  if 0 < (stop - start) / step then (⌈(stop - start) / step⌉).toNat else 0

/-- Exact semantics of `np.arange(start, stop, step)`. -/
def arange (start stop step : ℚ) : List ℚ :=
  (List.range (arangeLen start stop step)).map
    (fun (k : ℕ) => start + (k : ℚ) * step)

/-- `upper_axis = np.arange(0, side/2+spacing, spacing)` from `cube_gen`. -/
def upperAxis (side spacing : ℚ) : List ℚ :=
  arange 0 (side / 2 + spacing) spacing

/-- `lower_axis = np.arange(-1*spacing, -1*(side/2+spacing), -1*spacing)[::-1]`
from `cube_gen`. -/
def lowerAxis (side spacing : ℚ) : List ℚ :=
  (arange (-1 * spacing) (-1 * (side / 2 + spacing)) (-1 * spacing)).reverse

/-- `axis = np.concatenate((upper_axis, lower_axis))` from `cube_gen`. -/
def axisList (side spacing : ℚ) : List ℚ :=
  upperAxis side spacing ++ lowerAxis side spacing

/-- `np.meshgrid(axis, axis, axis, indexing='ij')` flattened in C order and
stacked into rows `(axis[i], axis[j], axis[k])`. -/
def gridTriples (ax : List ℚ) : List Point3 :=
  ax.flatMap (fun x => ax.flatMap (fun y => ax.map (fun z => (x, y, z))))

/-- The key order used by `np.lexsort((points[:,0], points[:,1], points[:,2]))`:
lexicographic by `(z, y, x)`, the last listed key being primary. -/
def lexLe (p q : Point3) : Prop :=
  p.2.2 < q.2.2 ∨ (p.2.2 = q.2.2 ∧ (p.2.1 < q.2.1 ∨ (p.2.1 = q.2.1 ∧ p.1 ≤ q.1)))

instance lexLe.decRel : DecidableRel lexLe := fun p q => by
  unfold lexLe; infer_instance

/-- `points[np.lexsort((points[:,0], points[:,1], points[:,2]))]`: a stable
sort of the rows, ascending by `(z, y, x)`. -/
def lexsortZYX (l : List Point3) : List Point3 :=
  List.insertionSort lexLe l

/-- `cube_gen(side, spacing)` from `b0_map.py`. -/
def cube_gen (side spacing : ℚ) : List Point3 :=
  lexsortZYX (gridTriples (axisList side spacing))

/-- `x**2 + y**2 + z**2` of a row, the radicand of `distance` in `sphere_gen`
and `circle_gen`. -/
def sumSq3 (p : Point3) : ℚ := p.1 ^ 2 + p.2.1 ^ 2 + p.2.2 ^ 2

/-- `x**2 + y**2` of a row, the radicand of `distance` in `cylinder_gen`. -/
def sumSq2 (p : Point3) : ℚ := p.1 ^ 2 + p.2.1 ^ 2

/-- Embedding of `np.sqrt(s) <= r` for a nonnegative radicand `s`:
equivalently `0 ≤ r ∧ s ≤ r ^ 2` (see `radialLe_iff_sqrt`). -/
def radialLe (s r : ℚ) : Bool :=
  decide (0 ≤ r ∧ s ≤ r ^ 2)

/-- `sphere_gen(diameter, spacing)` from `b0_map.py`: the cube filtered by
`distance <= diameter/2` with `distance = sqrt(x² + y² + z²)`. -/
def sphere_gen (diameter spacing : ℚ) : List Point3 :=
  (cube_gen diameter spacing).filter (fun p => radialLe (sumSq3 p) (diameter / 2))

/-- `cylinder_gen(diameter, spacing)` from `b0_map.py`: the cube filtered by
`distance <= diameter/2` with `distance = sqrt(x² + y²)`. -/
def cylinder_gen (diameter spacing : ℚ) : List Point3 :=
  (cube_gen diameter spacing).filter (fun p => radialLe (sumSq2 p) (diameter / 2))

/-- The 2-D rectangle built inside `circle_gen`: rows `(0, axis[i], axis[j])`
of `np.meshgrid(axis, axis, indexing='ij')` with `X = zeros`, lexsorted. -/
def circleRect (diameter spacing : ℚ) : List Point3 :=
  lexsortZYX ((axisList diameter spacing).flatMap
    (fun y => (axisList diameter spacing).map (fun z => ((0 : ℚ), y, z))))

/-- `circle_gen(diameter, spacing)` from `b0_map.py`: the rectangle filtered by
`distance <= diameter/2` with `distance = sqrt(x² + y² + z²)`. -/
def circle_gen (diameter spacing : ℚ) : List Point3 :=
  (circleRect diameter spacing).filter (fun p => radialLe (sumSq3 p) (diameter / 2))

/-- The four sampling shapes accepted by the CLI of `b0_map.py`. -/
inductive Shape where
  | cube
  | cylinder
  | sphere
  | circle
deriving DecidableEq

/-- The shape dispatch of `__main__` in `b0_map.py` (lines 167-174). -/
def genShape : Shape → ℚ → ℚ → List Point3
  | Shape.cube => cube_gen
  | Shape.cylinder => cylinder_gen
  | Shape.sphere => sphere_gen
  | Shape.circle => circle_gen

/-!
Error behaviour of the generators.  The Python generators perform no input
validation; the repository defines no error class of its own.  The only way a
generator can raise is `np.arange` with `step == 0`, which fails inside numpy
with a `ZeroDivisionError`.  The `Except` wrappers below record exactly that
behaviour.
-/

/-- The only exception a generator can raise: `np.arange` with a zero step
(`spacing == 0`), a numpy `ZeroDivisionError`.  The code defines no
`ConfigurationError` and performs no range checks. -/
inductive GenError where
  | zeroStep
deriving DecidableEq

instance instDecEqExcept {ε α : Type} [DecidableEq ε] [DecidableEq α] :
    DecidableEq (Except ε α) := fun a b =>
  match a, b with
  | Except.error e, Except.error f =>
    match decEq e f with
    | isTrue h => isTrue (by rw [h])
    | isFalse h => isFalse (by simp [h])
  | Except.error _, Except.ok _ => isFalse (by simp)
  | Except.ok _, Except.error _ => isFalse (by simp)
  | Except.ok a, Except.ok b =>
    match decEq a b with
    | isTrue h => isTrue (by rw [h])
    | isFalse h => isFalse (by simp [h])

/-- `cube_gen` with its exception behaviour: it raises only for
`spacing = 0` (inside `np.arange`), and otherwise returns normally. -/
def cube_genE (side spacing : ℚ) : Except GenError (List Point3) :=
  if spacing = 0 then Except.error GenError.zeroStep
  else Except.ok (cube_gen side spacing)

/-- `sphere_gen` with its exception behaviour (via `cube_gen`). -/
def sphere_genE (diameter spacing : ℚ) : Except GenError (List Point3) :=
  if spacing = 0 then Except.error GenError.zeroStep
  else Except.ok (sphere_gen diameter spacing)

/-- `cylinder_gen` with its exception behaviour (via `cube_gen`). -/
def cylinder_genE (diameter spacing : ℚ) : Except GenError (List Point3) :=
  if spacing = 0 then Except.error GenError.zeroStep
  else Except.ok (cylinder_gen diameter spacing)

/-- `circle_gen` with its exception behaviour (via its own `np.arange`). -/
def circle_genE (diameter spacing : ℚ) : Except GenError (List Point3) :=
  if spacing = 0 then Except.error GenError.zeroStep
  else Except.ok (circle_gen diameter spacing)

/-- The straight-line order of the side-effecting steps of `__main__` in
`b0_map.py`: the probe (line 140) and printer (line 142) are constructed
before the points are generated (lines 167-174). -/
inductive MainEvent where
  | probeInit
  | printerInit
  | homePrompt
  | affineSet
  | generatePoints
  | openOutputFile
  | writeHeader
  | scanPoints
  | beep
deriving DecidableEq, BEq

/-- The order in which `__main__` performs its steps (`b0_map.py` 140-216). -/
def mainEvents : List MainEvent :=
  [MainEvent.probeInit, MainEvent.printerInit, MainEvent.homePrompt,
   MainEvent.affineSet, MainEvent.generatePoints, MainEvent.openOutputFile,
   MainEvent.writeHeader, MainEvent.scanPoints, MainEvent.beep]

/-!
The magnet-to-stage affine transform (`print3d.py` `Printer.move_mag`,
with the matrix assigned in `__main__` of `b0_map.py`, lines 162-165).
-/

/-- The affine matrix assigned to `printer.affine` in `__main__`
(`b0_map.py` lines 162-165), with the configured center in its last column. -/
def mainAffine (c : Point3) : Fin 4 → Fin 4 → ℚ :=
  ![![0, 0, -1, c.1],
    ![0, -1, 0, c.2.1],
    ![1, 0, 0, c.2.2],
    ![0, 0, 0, 0]]

/-- `np.append(position, 1)`: the homogeneous extension of a magnet-frame
point built in `Printer.move_mag`. -/
def appendOne (p : Point3) : Fin 4 → ℚ := ![p.1, p.2.1, p.2.2, 1]

/-- Matrix-vector product `affine @ pos_magnet` of `Printer.move_mag`. -/
def mulVec4 (M : Fin 4 → Fin 4 → ℚ) (v : Fin 4 → ℚ) (i : Fin 4) : ℚ :=
  ∑ j, M i j * v j

/-- The stage-frame target `(self.affine @ pos_magnet)[0:3]` computed by
`Printer.move_mag` for a magnet-frame point, with the `__main__` matrix. -/
def move_mag_target (c p : Point3) : Point3 :=
  ((mulVec4 (mainAffine c) (appendOne p)) 0,
   (mulVec4 (mainAffine c) (appendOne p)) 1,
   (mulVec4 (mainAffine c) (appendOne p)) 2)

/-!
The scan loop of `__main__` (`b0_map.py` lines 199-215).  Each call of the
inner `measure(point)` emits one CSV row for the magnet-frame point it
measures; `measure([0,0,0])` is a drift-reference measurement at the origin.
The trace below records each `measure` call: `Rec.ref` for `measure([0,0,0])`
and `Rec.sample i` for `measure(points[i])`.
-/

/-- One emitted measurement record: a drift reference at the origin, or the
record for the point at index `i` of the generated sequence. -/
inductive Rec where
  | ref
  | sample (i : ℕ)
deriving DecidableEq

/-- The `for i in range(start, n_points)` loop body of `__main__`
(lines 206-213): a reference measurement when `i % remeasure_interval == 0`,
then the measurement of `points[i]`. -/
def scanLoop (m : ℕ) (i n : ℕ) : List Rec :=
  if i < n then
    (if i % m = 0 then [Rec.ref] else []) ++ Rec.sample i :: scanLoop m (i + 1) n
  else []
termination_by n - i

/-- The records emitted while processing one loop index `i`: a drift
reference when `i % remeasure_interval == 0`, then the sample at `i`. -/
def scanBody (m i : ℕ) : List Rec :=
  (if i % m = 0 then [Rec.ref] else []) ++ [Rec.sample i]

/-- The full trace of `measure` calls of a scan (`b0_map.py` lines 203-215):
initial reference, the resumable loop from `start`, final reference. -/
def scanRecs (n start m : ℕ) : List Rec :=
  Rec.ref :: (scanLoop m start n ++ [Rec.ref])

/-- The magnet-frame point measured by a record: `[0,0,0]` for a reference,
`points[i]` for a sample. -/
def recPoint (pts : List Point3) : Rec → Point3
  | Rec.ref => (0, 0, 0)
  | Rec.sample i => pts.getD i (0, 0, 0)

/-- One CSV measurement row (single-axis schema): the magnet-frame point and
the probe's field and temperature readings for that `measure` call. -/
structure Row where
  pt : Point3
  field : ℚ
  temp : ℚ
deriving DecidableEq

/-- The rows written by a scan, with the probe's readings supplied by oracles
indexed by the (0-based) position of the `measure` call in the run. -/
def scanRows (pts : List Point3) (start m : ℕ) (fieldRead tempRead : ℕ → ℚ) :
    List Row :=
  (((scanRecs pts.length start m).map (recPoint pts)).enum).map
    (fun kp => ⟨kp.2, fieldRead kp.1, tempRead kp.1⟩)

/-- A line of the output CSV file: the single header row written before the
scan, or a measurement record. -/
inductive FileRow where
  | header (axes : ℕ)
  | record (r : Rec)
deriving DecidableEq

/-- Is this file row the header row? -/
def FileRow.isHeader : FileRow → Bool
  | FileRow.header _ => true
  | FileRow.record _ => false

/-- `open(save_name, 'w', ...)`: mode `'w'` truncates, so whatever the file
held before the run is discarded. -/
def openTruncate (_prior : List FileRow) : List FileRow := []

/-- The rows of the output file after a run (`b0_map.py` lines 178-215):
the prior content is truncated by mode `'w'`, one header row is written, then
every `measure` call appends one record row in emission order. -/
def runFileRows (prior : List FileRow) (axes n start m : ℕ) : List FileRow :=
  openTruncate prior ++
    FileRow.header axes :: (scanRecs n start m).map FileRow.record

/-!
Helper lemmas about the scan loop.
-/

/-- The loop unrolls to a `flatMap` of per-index bodies over the index range
`[i, n)`. -/
theorem scanLoop_eq (m n : ℕ) :
    ∀ (k i : ℕ), n - i = k →
      scanLoop m i n = (List.range' i k).flatMap (scanBody m) := by
  intro k
  induction k with
  | zero =>
    intro i h
    rw [scanLoop]
    have : ¬ i < n := by omega
    simp [this]
  | succ k ih =>
    intro i h
    have hi : i < n := by omega
    rw [scanLoop, if_pos hi, List.range'_succ, List.flatMap_cons,
      ih (i + 1) (by omega)]
    simp [scanBody]

/-- Closed form of the whole scan trace. -/
theorem scanRecs_eq (n start m : ℕ) :
    scanRecs n start m =
      Rec.ref ::
        ((List.range' start (n - start)).flatMap (scanBody m) ++ [Rec.ref]) := by
  rw [scanRecs, scanLoop_eq m n (n - start) start rfl]

/-- Length of the unrolled loop body: one record per index, plus one extra
reference for each index divisible by the remeasure interval. -/
theorem flatMap_scanBody_length (m : ℕ) (l : List ℕ) :
    (l.flatMap (scanBody m)).length =
      l.length + (l.filter (fun i => decide (i % m = 0))).length := by
  induction l with
  | nil => simp
  | cons a l ih =>
    rw [List.flatMap_cons, List.length_append, ih]
    by_cases h : a % m = 0
    · simp [scanBody, h]
      omega
    · simp [scanBody, h]
      omega

/-- Total record count of a scan. -/
theorem scanRecs_length (n start m : ℕ) :
    (scanRecs n start m).length =
      (n - start) +
        ((List.range' start (n - start)).filter
          (fun i => decide (i % m = 0))).length + 2 := by
  rw [scanRecs_eq, List.length_cons, List.length_append, flatMap_scanBody_length]
  simp [List.length_range']

/-- A sample record inside a loop body carries that body's index. -/
theorem sample_mem_scanBody {m j i : ℕ} (h : Rec.sample i ∈ scanBody m j) :
    i = j := by
  unfold scanBody at h
  rcases List.mem_append.1 h with h1 | h2
  · split at h1 <;> simp at h1
  · simpa using h2

/-- Every sample record of a scan has an index in the in-scope range. -/
theorem sample_mem_scanRecs {i n start m : ℕ}
    (h : Rec.sample i ∈ scanRecs n start m) : start ≤ i ∧ i < n := by
  rw [scanRecs_eq] at h
  rcases List.mem_cons.1 h with h0 | h1
  · exact absurd h0 (by simp)
  rcases List.mem_append.1 h1 with h2 | h3
  · obtain ⟨j, hj, hmem⟩ := List.mem_flatMap.1 h2
    have hij := sample_mem_scanBody hmem
    have hr := List.mem_range'_1.1 hj
    omega
  · simp at h3

/-- Projecting the emitted rows to their points forgets the probe readings. -/
theorem map_pt_scanRows (pts : List Point3) (start m : ℕ) (f t : ℕ → ℚ) :
    (scanRows pts start m f t).map Row.pt =
      (scanRecs pts.length start m).map (recPoint pts) := by
  rw [scanRows, List.map_map]
  have hc : (Row.pt ∘ fun kp : ℕ × Point3 => Row.mk kp.2 (f kp.1) (t kp.1)) =
      Prod.snd := rfl
  rw [hc, List.enum_map_snd]

/-!
Claim theorems: scan controller.
-/

/-- Claim C1: a scan over a sequence of length `n` with resume index `R` and
remeasure interval `m` emits one reference, then for each `i` in `[R, n)` a
reference exactly when `i % m = 0` followed by the record of point `i`, then
one final reference; the total record count is
`(n - R) + |{i ∈ [R, n) : i % m = 0}| + 2`. -/
theorem scan_resume_drift_law :
    ∀ (n R m : ℕ), 0 < m →
      scanRecs n R m =
        Rec.ref ::
          ((List.range' R (n - R)).flatMap
            (fun i => (if i % m = 0 then [Rec.ref] else []) ++ [Rec.sample i])
            ++ [Rec.ref])
      ∧ (scanRecs n R m).length =
          (n - R) +
            ((List.range' R (n - R)).filter (fun i => decide (i % m = 0))).length
            + 2 := by
  intro n R m _
  exact ⟨scanRecs_eq n R m, scanRecs_length n R m⟩

/-- Witness for C1, the Scenario C instance: `n = 12`, `R = 5`, `m = 4` gives
an in-loop reference at `i = 8` only and exactly 10 records. -/
theorem scan_resume_drift_law_witness :
    0 < 4 ∧
      scanRecs 12 5 4 =
        [Rec.ref, Rec.sample 5, Rec.sample 6, Rec.sample 7, Rec.ref,
         Rec.sample 8, Rec.sample 9, Rec.sample 10, Rec.sample 11, Rec.ref] ∧
      (scanRecs 12 5 4).length = 10 := by
  refine ⟨by decide, ?_, ?_⟩
  · exact ((scan_resume_drift_law 12 5 4 (by decide)).1).trans (by decide)
  · exact ((scan_resume_drift_law 12 5 4 (by decide)).2).trans (by decide)

/-- Claim C2 counterexample: with `spacing = -1 ≤ 0` every generator returns
normally (an empty point list) instead of raising any error; the code has no
`ConfigurationError` to raise. -/
theorem gen_no_error_counterexample :
    cube_genE 10 (-1) = Except.ok []
    ∧ sphere_genE 10 (-1) = Except.ok []
    ∧ cylinder_genE 10 (-1) = Except.ok []
    ∧ circle_genE 10 (-1) = Except.ok [] := by
  refine ⟨?_, ?_, ?_, ?_⟩ <;> with_unfolding_all decide

/-- Claim C2 (amended): the generators perform no validation and the code
defines no `ConfigurationError`; for any `spacing ≠ 0` every generator
returns normally, `spacing = 0` fails inside `np.arange` with a
`ZeroDivisionError`, and `__main__` constructs the probe before generating
points — so a generation-time failure happens after device interaction. -/
theorem gen_no_validation :
    ∀ (side spacing : ℚ), spacing ≠ 0 →
      (cube_genE side spacing = Except.ok (cube_gen side spacing)
       ∧ sphere_genE side spacing = Except.ok (sphere_gen side spacing)
       ∧ cylinder_genE side spacing = Except.ok (cylinder_gen side spacing)
       ∧ circle_genE side spacing = Except.ok (circle_gen side spacing))
      ∧ cube_genE side 0 = Except.error GenError.zeroStep
      ∧ mainEvents.indexOf MainEvent.probeInit <
          mainEvents.indexOf MainEvent.generatePoints := by
  intro side spacing h
  refine ⟨⟨?_, ?_, ?_, ?_⟩, ?_, by decide⟩
  · simp [cube_genE, h]
  · simp [sphere_genE, h]
  · simp [cylinder_genE, h]
  · simp [circle_genE, h]
  · simp [cube_genE]

/-- Witness for the amended C2 at `side = 10`, `spacing = -1`. -/
theorem gen_no_validation_witness :
    (-1 : ℚ) ≠ 0 ∧ cube_genE 10 (-1) = Except.ok (cube_gen 10 (-1)) := by
  exact ⟨by norm_num, (gen_no_validation 10 (-1) (by norm_num)).1.1⟩

/-- Claim C3: `move_mag` with the `__main__` affine matrix is the total
homogeneous matrix-vector product sending magnet point `(x, y, z)` to stage
point `(-z + cx, -y + cy, x + cz)`; with center `(0,0,0)` it is the pure
axis remap `(-z, -y, x)`. -/
theorem move_mag_affine :
    ∀ (c p : Point3),
      move_mag_target c p = (-p.2.2 + c.1, -p.2.1 + c.2.1, p.1 + c.2.2)
      ∧ move_mag_target (0, 0, 0) p = (-p.2.2, -p.2.1, p.1) := by
  intro c p
  constructor
  · simp [move_mag_target, mulVec4, mainAffine, appendOne, Fin.sum_univ_four]
  · simp [move_mag_target, mulVec4, mainAffine, appendOne, Fin.sum_univ_four]

/-- Claim C8: generation is a pure function of its inputs, the points column
of the emitted rows does not depend on the probe-reading oracles, and with
identical readings the full record sequences of two runs coincide. -/
theorem scan_deterministic :
    ∀ (sh : Shape) (d sp : ℚ) (R m : ℕ) (f₁ t₁ f₂ t₂ : ℕ → ℚ),
      genShape sh d sp = genShape sh d sp
      ∧ (scanRows (genShape sh d sp) R m f₁ t₁).map Row.pt =
          (scanRows (genShape sh d sp) R m f₂ t₂).map Row.pt
      ∧ (f₁ = f₂ → t₁ = t₂ →
          scanRows (genShape sh d sp) R m f₁ t₁ =
            scanRows (genShape sh d sp) R m f₂ t₂) := by
  intro sh d sp R m f₁ t₁ f₂ t₂
  refine ⟨rfl, ?_, ?_⟩
  · rw [map_pt_scanRows, map_pt_scanRows]
  · intro hf ht
    rw [hf, ht]

/-- Witness for C8 at a cube scan with two different reading oracles. -/
theorem scan_deterministic_witness :
    (scanRows (genShape Shape.cube 10 5) 5 4 (fun _ => 0) (fun _ => 0)).map
        Row.pt =
      (scanRows (genShape Shape.cube 10 5) 5 4 (fun _ => 1) (fun _ => 2)).map
        Row.pt
    ∧ scanRows (genShape Shape.cube 10 5) 5 4 (fun _ => 0) (fun _ => 0) =
        scanRows (genShape Shape.cube 10 5) 5 4 (fun _ => 0) (fun _ => 0) := by
  exact ⟨(scan_deterministic Shape.cube 10 5 5 4 (fun _ => 0) (fun _ => 0)
      (fun _ => 1) (fun _ => 2)).2.1,
    (scan_deterministic Shape.cube 10 5 5 4 (fun _ => 0) (fun _ => 0)
      (fun _ => 0) (fun _ => 0)).2.2 rfl rfl⟩

/-- Claim C10: a run writes exactly one header row, at the head of the file,
before any record; the file is truncated on open, so its content after the
run is independent of the prior content, and a resumed run's file holds no
record for any skipped index `i < R`. -/
theorem resumed_run_file :
    ∀ (prior : List FileRow) (axes n R m : ℕ), 0 < m →
      runFileRows prior axes n R m =
        FileRow.header axes :: (scanRecs n R m).map FileRow.record
      ∧ ((runFileRows prior axes n R m).filter FileRow.isHeader).length = 1
      ∧ (∀ i, i < R →
          FileRow.record (Rec.sample i) ∉ runFileRows prior axes n R m) := by
  intro prior axes n R m _
  refine ⟨rfl, ?_, ?_⟩
  · have hc : (FileRow.isHeader ∘ FileRow.record) = fun _ => false := rfl
    simp [runFileRows, openTruncate, List.filter_map, hc, FileRow.isHeader]
  · intro i hi hmem
    simp only [runFileRows, openTruncate, List.nil_append] at hmem
    rcases List.mem_cons.1 hmem with h2 | h3
    · exact absurd h2 (by simp)
    obtain ⟨r, hr, hrec⟩ := List.mem_map.1 h3
    have hri : r = Rec.sample i := by
      cases r <;> simp_all
    subst hri
    have := (sample_mem_scanRecs hr).1
    omega

/-- Claim C4, Scenario A: `cube_gen(10, 5)` yields exactly the 27 points with
coordinates in `{-5, 0, 5}`, sorted ascending lexicographically by
`(z, y, x)`, first `(-5,-5,-5)` and last `(5,5,5)`. -/
theorem cube_scenario_10_5 :
    cube_gen 10 5 =
      [(-5, -5, -5), (0, -5, -5), (5, -5, -5), (-5, 0, -5), (0, 0, -5),
       (5, 0, -5), (-5, 5, -5), (0, 5, -5), (5, 5, -5), (-5, -5, 0),
       (0, -5, 0), (5, -5, 0), (-5, 0, 0), (0, 0, 0), (5, 0, 0), (-5, 5, 0),
       (0, 5, 0), (5, 5, 0), (-5, -5, 5), (0, -5, 5), (5, -5, 5), (-5, 0, 5),
       (0, 0, 5), (5, 0, 5), (-5, 5, 5), (0, 5, 5), (5, 5, 5)]
    ∧ (cube_gen 10 5).length = 27
    ∧ (cube_gen 10 5).all
        (fun p => decide (p.1 ∈ ([-5, 0, 5] : List ℚ)) &&
                  decide (p.2.1 ∈ ([-5, 0, 5] : List ℚ)) &&
                  decide (p.2.2 ∈ ([-5, 0, 5] : List ℚ))) = true
    ∧ List.Sorted lexLe (cube_gen 10 5)
    ∧ (cube_gen 10 5).head? = some (-5, -5, -5)
    ∧ (cube_gen 10 5).getLast? = some (5, 5, 5) := by
  refine ⟨?_, ?_, ?_, ?_, ?_, ?_⟩ <;> with_unfolding_all decide

/-- Claim C7, Scenario B: `sphere_gen(10, 10)` yields exactly one point, the
origin. -/
theorem sphere_scenario_10_10 : sphere_gen 10 10 = [((0 : ℚ), 0, 0)] := by
  with_unfolding_all decide

/-!
Counting lemmas for the generators (used by claim C5).
-/

/-- Occurrences of a triple in one inner `meshgrid` row. -/
theorem count_triple_map (l : List ℚ) (x y a b c : ℚ) :
    (l.map (fun z => ((x, y, z) : Point3))).count (a, b, c) =
      if x = a ∧ y = b then l.count c else 0 := by
  by_cases h : x = a ∧ y = b
  · obtain ⟨hx, hy⟩ := h
    subst hx
    subst hy
    rw [if_pos ⟨rfl, rfl⟩]
    exact List.count_map_of_injective l (fun z => ((x, y, z) : Point3))
      (fun z1 z2 hz => by simpa using hz) c
  · rw [if_neg h, List.count_eq_zero]
    intro hmem
    obtain ⟨z, hz, hez⟩ := List.mem_map.1 hmem
    simp only [Prod.mk.injEq] at hez
    exact h ⟨hez.1, hez.2.1⟩

/-- Occurrences of a triple in a plane of the `meshgrid` product. -/
theorem count_triple_flat2 (ly lz : List ℚ) (x a b c : ℚ) :
    (ly.flatMap (fun y => lz.map (fun z => ((x, y, z) : Point3)))).count (a, b, c) =
      if x = a then ly.count b * lz.count c else 0 := by
  induction ly with
  | nil => simp
  | cons hy ty ih =>
    rw [List.flatMap_cons, List.count_append, ih, count_triple_map]
    by_cases hx : x = a
    · by_cases hb : hy = b
      · subst hb
        simp [hx, List.count_cons]
        ring
      · simp [hx, hb, List.count_cons, Ne.symm hb]
    · simp [hx]

/-- Occurrences of a triple in the full `meshgrid` product. -/
theorem count_triple_flat3 (lx ly lz : List ℚ) (a b c : ℚ) :
    (lx.flatMap
        (fun x => ly.flatMap
          (fun y => lz.map (fun z => ((x, y, z) : Point3))))).count (a, b, c) =
      lx.count a * (ly.count b * lz.count c) := by
  induction lx with
  | nil => simp
  | cons hx tx ih =>
    rw [List.flatMap_cons, List.count_append, ih, count_triple_flat2]
    by_cases hxa : hx = a
    · simp [hxa, List.count_cons]
      ring
    · simp [hxa, List.count_cons, Ne.symm hxa]

/-- The positive progression contains zero exactly once. -/
theorem count_zero_upperAxis (side sp : ℚ) (hside : 0 < side) (hsp : 0 < sp) :
    (upperAxis side sp).count 0 = 1 := by
  unfold upperAxis arange
  have hinj : Function.Injective (fun (k : ℕ) => (0 : ℚ) + (k : ℚ) * sp) := by
    intro k1 k2 h
    simp only [zero_add] at h
    have h2 := mul_right_cancel₀ (ne_of_gt hsp) h
    exact_mod_cast h2
  have hnd : ((List.range (arangeLen 0 (side / 2 + sp) sp)).map
      (fun (k : ℕ) => (0 : ℚ) + (k : ℚ) * sp)).Nodup :=
    (List.nodup_range _).map hinj
  have hL : 0 < arangeLen 0 (side / 2 + sp) sp := by
    unfold arangeLen
    have hq : (0 : ℚ) < (side / 2 + sp - 0) / sp := by
      rw [sub_zero]
      positivity
    rw [if_pos hq]
    have hc : (0 : ℤ) < ⌈(side / 2 + sp - 0) / sp⌉ := Int.ceil_pos.2 hq
    omega
  have hmem : (0 : ℚ) ∈ (List.range (arangeLen 0 (side / 2 + sp) sp)).map
      (fun (k : ℕ) => (0 : ℚ) + (k : ℚ) * sp) :=
    List.mem_map.2 ⟨0, List.mem_range.2 hL, by simp⟩
  exact List.count_eq_one_of_mem hnd hmem

/-- The negative progression never contains zero. -/
theorem count_zero_lowerAxis (side sp : ℚ) (hsp : 0 < sp) :
    (lowerAxis side sp).count 0 = 0 := by
  rw [List.count_eq_zero]
  unfold lowerAxis arange
  intro hmem
  rw [List.mem_reverse] at hmem
  obtain ⟨k, hk, he⟩ := List.mem_map.1 hmem
  have hk0 : (0 : ℚ) ≤ (k : ℚ) := Nat.cast_nonneg k
  nlinarith [he]

/-- The concatenated axis contains zero exactly once. -/
theorem count_zero_axisList (side sp : ℚ) (hside : 0 < side) (hsp : 0 < sp) :
    (axisList side sp).count 0 = 1 := by
  rw [axisList, List.count_append, count_zero_upperAxis side sp hside hsp,
    count_zero_lowerAxis side sp hsp]

/-- The cube contains the origin exactly once. -/
theorem count_origin_cube (d sp : ℚ) (hd : 0 < d) (hsp : 0 < sp) :
    (cube_gen d sp).count (0, 0, 0) = 1 := by
  rw [cube_gen, lexsortZYX, (List.perm_insertionSort lexLe _).count_eq,
    gridTriples, count_triple_flat3, count_zero_axisList d sp hd hsp]

/-- The origin passes the 3-D radial filter for a positive diameter. -/
theorem radialLe_origin3 (d : ℚ) (hd : 0 < d) :
    radialLe (sumSq3 ((0 : ℚ), 0, 0)) (d / 2) = true := by
  rw [radialLe, decide_eq_true_eq]
  have hs : sumSq3 ((0 : ℚ), 0, 0) = 0 := by norm_num [sumSq3]
  rw [hs]
  constructor
  · positivity
  · positivity

/-- The origin passes the planar radial filter for a positive diameter. -/
theorem radialLe_origin2 (d : ℚ) (hd : 0 < d) :
    radialLe (sumSq2 ((0 : ℚ), 0, 0)) (d / 2) = true := by
  rw [radialLe, decide_eq_true_eq]
  have hs : sumSq2 ((0 : ℚ), 0, 0) = 0 := by norm_num [sumSq2]
  rw [hs]
  constructor
  · positivity
  · positivity

/-- The circle's generating rectangle contains the origin exactly once. -/
theorem count_origin_circleRect (d sp : ℚ) (hd : 0 < d) (hsp : 0 < sp) :
    (circleRect d sp).count (0, 0, 0) = 1 := by
  rw [circleRect, lexsortZYX, (List.perm_insertionSort lexLe _).count_eq,
    count_triple_flat2, if_pos rfl, count_zero_axisList d sp hd hsp]

/-- Claim C5: for every positive size and spacing, each of the four shape
generators emits the origin `(0, 0, 0)` exactly once. -/
theorem origin_exactly_once :
    ∀ (d sp : ℚ), 0 < d → 0 < sp →
      (cube_gen d sp).count (0, 0, 0) = 1
      ∧ (sphere_gen d sp).count (0, 0, 0) = 1
      ∧ (cylinder_gen d sp).count (0, 0, 0) = 1
      ∧ (circle_gen d sp).count (0, 0, 0) = 1 := by
  intro d sp hd hsp
  refine ⟨count_origin_cube d sp hd hsp, ?_, ?_, ?_⟩
  · rw [sphere_gen, @List.count_filter _ _ _ (fun q => radialLe (sumSq3 q) (d / 2))
      (0, 0, 0) (cube_gen d sp) (radialLe_origin3 d hd)]
    exact count_origin_cube d sp hd hsp
  · rw [cylinder_gen, @List.count_filter _ _ _ (fun q => radialLe (sumSq2 q) (d / 2))
      (0, 0, 0) (cube_gen d sp) (radialLe_origin2 d hd)]
    exact count_origin_cube d sp hd hsp
  · rw [circle_gen, @List.count_filter _ _ _ (fun q => radialLe (sumSq3 q) (d / 2))
      (0, 0, 0) (circleRect d sp) (radialLe_origin3 d hd)]
    exact count_origin_circleRect d sp hd hsp

/-- Witness for C5 at diameter 10, spacing 5. -/
theorem origin_exactly_once_witness :
    (0 : ℚ) < 10 ∧ (0 : ℚ) < 5 ∧
      (cube_gen 10 5).count (0, 0, 0) = 1
      ∧ (sphere_gen 10 5).count (0, 0, 0) = 1
      ∧ (cylinder_gen 10 5).count (0, 0, 0) = 1
      ∧ (circle_gen 10 5).count (0, 0, 0) = 1 := by
  have h := origin_exactly_once 10 5 (by norm_num) (by norm_num)
  exact ⟨by norm_num, by norm_num, h.1, h.2.1, h.2.2.1, h.2.2.2⟩

/-!
The radial predicate against `Real.sqrt` (used by claim C6).
-/

/-- Justification of the embedding of `np.sqrt(s) <= r`: for a nonnegative
radicand the decidable predicate coincides with the square-root comparison. -/
theorem radialLe_iff_sqrt (s r : ℚ) (hs : 0 ≤ s) :
    radialLe s r = true ↔ Real.sqrt ((s : ℝ)) ≤ (r : ℝ) := by
  rw [radialLe, decide_eq_true_eq]
  constructor
  · rintro ⟨h1, h2⟩
    calc Real.sqrt ((s : ℝ)) ≤ Real.sqrt (((r : ℝ)) ^ 2) :=
          Real.sqrt_le_sqrt (by exact_mod_cast h2)
      _ = (r : ℝ) := Real.sqrt_sq (by exact_mod_cast h1)
  · intro h
    have hr : (0 : ℝ) ≤ (r : ℝ) := le_trans (Real.sqrt_nonneg _) h
    have hsr : Real.sqrt ((s : ℝ)) ^ 2 = (s : ℝ) :=
      Real.sq_sqrt (by exact_mod_cast hs)
    have hs2 : (s : ℝ) ≤ (r : ℝ) ^ 2 := by
      rw [← hsr]
      exact pow_le_pow_left₀ (Real.sqrt_nonneg _) h 2
    exact ⟨by exact_mod_cast hr, by exact_mod_cast hs2⟩

/-- A sum of three squares is nonnegative. -/
theorem sumSq3_nonneg (p : Point3) : 0 ≤ sumSq3 p := by
  rw [sumSq3]; positivity

/-- A sum of two squares is nonnegative. -/
theorem sumSq2_nonneg (p : Point3) : 0 ≤ sumSq2 p := by
  rw [sumSq2]; positivity

/-- Claim C6: every point kept by the sphere, cylinder or circle generator
satisfies its radial predicate with non-strict inequality (Euclidean norm at
most `d/2`, planar radius for the cylinder), and each filtered output is an
order-preserving subsequence of its generating cube (rectangle for the
circle). -/
theorem filtered_radial_sublist :
    ∀ (d sp : ℚ),
      (∀ p ∈ sphere_gen d sp, Real.sqrt ((sumSq3 p : ℝ)) ≤ (d : ℝ) / 2)
      ∧ (∀ p ∈ cylinder_gen d sp, Real.sqrt ((sumSq2 p : ℝ)) ≤ (d : ℝ) / 2)
      ∧ (∀ p ∈ circle_gen d sp, Real.sqrt ((sumSq3 p : ℝ)) ≤ (d : ℝ) / 2)
      ∧ List.Sublist (sphere_gen d sp) (cube_gen d sp)
      ∧ List.Sublist (cylinder_gen d sp) (cube_gen d sp)
      ∧ List.Sublist (circle_gen d sp) (circleRect d sp) := by
  intro d sp
  have hhalf : ((d / 2 : ℚ) : ℝ) = (d : ℝ) / 2 := by push_cast; ring
  refine ⟨?_, ?_, ?_, List.filter_sublist _, List.filter_sublist _,
    List.filter_sublist _⟩
  · intro p hp
    have h := (List.mem_filter.1 hp).2
    rw [← hhalf]
    exact (radialLe_iff_sqrt _ _ (sumSq3_nonneg p)).1 h
  · intro p hp
    have h := (List.mem_filter.1 hp).2
    rw [← hhalf]
    exact (radialLe_iff_sqrt _ _ (sumSq2_nonneg p)).1 h
  · intro p hp
    have h := (List.mem_filter.1 hp).2
    rw [← hhalf]
    exact (radialLe_iff_sqrt _ _ (sumSq3_nonneg p)).1 h

/-- Witness for C6: the origin is kept by `sphere_gen 10 5`, its norm bound
holds, and the sphere is a sublist of its generating cube. -/
theorem filtered_radial_sublist_witness :
    ((0 : ℚ), 0, 0) ∈ sphere_gen 10 5
    ∧ Real.sqrt ((sumSq3 ((0 : ℚ), 0, 0) : ℝ)) ≤ ((10 : ℚ) : ℝ) / 2
    ∧ List.Sublist (sphere_gen 10 5) (cube_gen 10 5) := by
  have hm : ((0 : ℚ), 0, 0) ∈ sphere_gen 10 5 := by with_unfolding_all decide
  exact ⟨hm, (filtered_radial_sublist 10 5).1 _ hm,
    (filtered_radial_sublist 10 5).2.2.2.1⟩

/-!
Membership characterisation of the generated axis (used by claim C9).
-/

/-- Elements of the embedded `np.arange`. -/
theorem mem_arange {a b st v : ℚ} :
    v ∈ arange a b st ↔
      ∃ k : ℕ, k < arangeLen a b st ∧ a + (k : ℚ) * st = v := by
  unfold arange
  constructor
  · intro h
    obtain ⟨k, hk, he⟩ := List.mem_map.1 h
    exact ⟨k, List.mem_range.1 hk, he⟩
  · rintro ⟨k, hk, he⟩
    exact List.mem_map.2 ⟨k, List.mem_range.2 hk, he⟩

/-- Length of the positive per-axis progression. -/
theorem arangeLen_upper (side sp : ℚ) (hside : 0 < side) (hsp : 0 < sp) :
    arangeLen 0 (side / 2 + sp) sp = (⌈(side / 2 + sp) / sp⌉).toNat := by
  unfold arangeLen
  rw [sub_zero, if_pos (div_pos (by linarith) hsp)]

/-- Length of the negative per-axis progression. -/
theorem arangeLen_lower (side sp : ℚ) (hside : 0 < side) (hsp : 0 < sp) :
    arangeLen (-1 * sp) (-1 * (side / 2 + sp)) (-1 * sp) =
      (⌈(side / 2) / sp⌉).toNat := by
  unfold arangeLen
  have hsp' : sp ≠ 0 := ne_of_gt hsp
  have he : (-1 * (side / 2 + sp) - -1 * sp) / (-1 * sp) = (side / 2) / sp := by
    field_simp
    ring
  rw [he, if_pos (div_pos (by linarith) hsp)]

/-- The positive progression holds exactly the nonnegative multiples
`k * spacing` with `k * spacing < side/2 + spacing`. -/
theorem mem_upperAxis {side sp v : ℚ} (hside : 0 < side) (hsp : 0 < sp) :
    v ∈ upperAxis side sp ↔
      ∃ k : ℕ, v = (k : ℚ) * sp ∧ (k : ℚ) * sp < side / 2 + sp := by
  rw [upperAxis, mem_arange, arangeLen_upper side sp hside hsp]
  constructor
  · rintro ⟨k, hk, he⟩
    refine ⟨k, by linarith, ?_⟩
    have h1 : (k : ℤ) < ⌈(side / 2 + sp) / sp⌉ := Int.lt_toNat.1 hk
    have h2 : ((k : ℤ) : ℚ) < (side / 2 + sp) / sp := Int.lt_ceil.1 h1
    have h3 : (k : ℚ) < (side / 2 + sp) / sp := by exact_mod_cast h2
    exact (lt_div_iff₀ hsp).1 h3
  · rintro ⟨k, hv, hlt⟩
    refine ⟨k, ?_, by linarith⟩
    have h3 : (k : ℚ) < (side / 2 + sp) / sp := (lt_div_iff₀ hsp).2 hlt
    have h2 : ((k : ℤ) : ℚ) < (side / 2 + sp) / sp := by exact_mod_cast h3
    exact Int.lt_toNat.2 (Int.lt_ceil.2 h2)

/-- The negative progression holds exactly the negated positive multiples
`-(j * spacing)`, `j ≥ 1`, with `j * spacing < side/2 + spacing`. -/
theorem mem_lowerAxis {side sp v : ℚ} (hside : 0 < side) (hsp : 0 < sp) :
    v ∈ lowerAxis side sp ↔
      ∃ j : ℕ, 1 ≤ j ∧ v = -((j : ℚ) * sp) ∧ (j : ℚ) * sp < side / 2 + sp := by
  rw [lowerAxis, List.mem_reverse, mem_arange,
    arangeLen_lower side sp hside hsp]
  constructor
  · rintro ⟨k, hk, he⟩
    refine ⟨k + 1, by omega, ?_, ?_⟩
    · push_cast
      linarith
    · have h1 : (k : ℤ) < ⌈(side / 2) / sp⌉ := Int.lt_toNat.1 hk
      have h2 : (k : ℚ) < (side / 2) / sp := by exact_mod_cast Int.lt_ceil.1 h1
      have h3 : (k : ℚ) * sp < side / 2 := (lt_div_iff₀ hsp).1 h2
      push_cast
      linarith
  · rintro ⟨j, hj1, hv, hlt⟩
    have hjc : ((j - 1 : ℕ) : ℚ) = (j : ℚ) - 1 := by
      push_cast [hj1]
      ring
    refine ⟨j - 1, ?_, ?_⟩
    · have hexp : ((j : ℚ) - 1) * sp = (j : ℚ) * sp - sp := by ring
      have hc : ((j : ℚ) - 1) * sp < side / 2 := by linarith
      have h2 : ((j - 1 : ℕ) : ℚ) < (side / 2) / sp := by
        rw [hjc]
        exact (lt_div_iff₀ hsp).2 hc
      have h3 : (((j - 1 : ℕ) : ℤ) : ℚ) < (side / 2) / sp := by exact_mod_cast h2
      exact Int.lt_toNat.2 (Int.lt_ceil.2 h3)
    · rw [hjc, hv]
      ring

/-- The whole axis holds exactly the integer multiples `k * spacing` with
`|k * spacing| < side/2 + spacing`. -/
theorem mem_axisList {side sp : ℚ} (hside : 0 < side) (hsp : 0 < sp) (v : ℚ) :
    v ∈ axisList side sp ↔
      ∃ k : ℤ, v = (k : ℚ) * sp ∧ |(k : ℚ) * sp| < side / 2 + sp := by
  rw [axisList, List.mem_append, mem_upperAxis hside hsp,
    mem_lowerAxis hside hsp]
  constructor
  · rintro (⟨k, hv, hlt⟩ | ⟨j, hj1, hv, hlt⟩)
    · refine ⟨(k : ℤ), by exact_mod_cast hv, ?_⟩
      have hc : (((k : ℕ) : ℤ) : ℚ) = (k : ℚ) := by push_cast; rfl
      rw [hc, abs_of_nonneg (mul_nonneg (Nat.cast_nonneg k) hsp.le)]
      exact hlt
    · refine ⟨-(j : ℤ), ?_, ?_⟩
      · have hc : ((-(j : ℤ) : ℤ) : ℚ) = -(j : ℚ) := by push_cast; rfl
        rw [hc, hv]
        ring
      · have hc : ((-(j : ℤ) : ℤ) : ℚ) = -(j : ℚ) := by push_cast; rfl
        rw [hc, neg_mul, abs_neg,
          abs_of_nonneg (mul_nonneg (Nat.cast_nonneg j) hsp.le)]
        exact hlt
  · rintro ⟨k, hv, hlt⟩
    rcases le_or_lt 0 k with hk | hk
    · left
      have hc : ((k.toNat : ℕ) : ℚ) = (k : ℚ) := by
        exact_mod_cast congrArg (Int.cast : ℤ → ℚ) (Int.toNat_of_nonneg hk)
      refine ⟨k.toNat, by rw [hv, hc], ?_⟩
      rw [hc]
      have hnn : (0 : ℚ) ≤ (k : ℚ) * sp :=
        mul_nonneg (by exact_mod_cast hk) hsp.le
      rwa [abs_of_nonneg hnn] at hlt
    · right
      have hk1 : (1 : ℤ) ≤ -k := by omega
      have hc : (((-k).toNat : ℕ) : ℚ) = -(k : ℚ) := by
        exact_mod_cast congrArg (Int.cast : ℤ → ℚ)
          (Int.toNat_of_nonneg (by omega))
      refine ⟨(-k).toNat, by omega, ?_, ?_⟩
      · rw [hv, hc]
        ring
      · rw [hc]
        have hnp : (k : ℚ) * sp ≤ 0 :=
          mul_nonpos_of_nonpos_of_nonneg (by exact_mod_cast hk.le) hsp.le
        have habs : |(k : ℚ) * sp| = -((k : ℚ) * sp) := abs_of_nonpos hnp
        have hneg : -(k : ℚ) * sp = -((k : ℚ) * sp) := by ring
        rw [hneg, ← habs]
        exact hlt

/-- Membership in the `meshgrid` product is componentwise axis membership. -/
theorem mem_gridTriples {l : List ℚ} {x y z : ℚ} :
    ((x, y, z) : Point3) ∈ gridTriples l ↔ x ∈ l ∧ y ∈ l ∧ z ∈ l := by
  simp [gridTriples, List.mem_flatMap, List.mem_map, Prod.mk.injEq]
  constructor
  · rintro ⟨a, ha, b, hb, c, hc, h1, h2, h3⟩
    subst h1; subst h2; subst h3
    exact ⟨ha, hb, hc⟩
  · rintro ⟨hx, hy, hz⟩
    exact ⟨x, hx, y, hy, z, hz, rfl, rfl, rfl⟩

/-- Membership in the cube is componentwise axis membership. -/
theorem mem_cube_gen {side sp : ℚ} (p : Point3) :
    p ∈ cube_gen side sp ↔
      p.1 ∈ axisList side sp ∧ p.2.1 ∈ axisList side sp ∧
        p.2.2 ∈ axisList side sp := by
  obtain ⟨x, y, z⟩ := p
  rw [cube_gen, lexsortZYX, List.mem_insertionSort]
  exact mem_gridTriples

/-- The axis is closed under negation. -/
theorem axisList_neg_mem {side sp : ℚ} (hside : 0 < side) (hsp : 0 < sp)
    (v : ℚ) (h : v ∈ axisList side sp) : -v ∈ axisList side sp := by
  rw [mem_axisList hside hsp] at h ⊢
  obtain ⟨k, hv, hlt⟩ := h
  refine ⟨-k, ?_, ?_⟩
  · rw [hv]
    push_cast
    ring
  · have hc : ((-k : ℤ) : ℚ) * sp = -((k : ℚ) * sp) := by push_cast; ring
    rw [hc, abs_neg]
    exact hlt

/-- Claim C9: in exact arithmetic, each per-axis progression of `cube_gen`
holds exactly the multiples `k * spacing` with `|k * spacing| <
side/2 + spacing`, so the point set is symmetric under negation; and whenever
`side/2` is not an exact multiple of `spacing`, some emitted coordinate
strictly exceeds `side/2` (by less than `spacing`). -/
theorem cube_gen_symmetry :
    ∀ (side sp : ℚ), 0 < side → 0 < sp →
      (∀ v : ℚ, v ∈ axisList side sp ↔
        ∃ k : ℤ, v = (k : ℚ) * sp ∧ |(k : ℚ) * sp| < side / 2 + sp)
      ∧ (∀ p : Point3, p ∈ cube_gen side sp ↔
          ((-p.1, -p.2.1, -p.2.2) : Point3) ∈ cube_gen side sp)
      ∧ ((¬ ∃ k : ℤ, side / 2 = (k : ℚ) * sp) →
          ∃ p ∈ cube_gen side sp, side / 2 < p.1 ∧ p.1 < side / 2 + sp) := by
  intro side sp hside hsp
  refine ⟨fun v => mem_axisList hside hsp v, ?_, ?_⟩
  · intro p
    constructor
    · intro h
      rw [mem_cube_gen] at h
      rw [mem_cube_gen]
      exact ⟨axisList_neg_mem hside hsp _ h.1,
        axisList_neg_mem hside hsp _ h.2.1,
        axisList_neg_mem hside hsp _ h.2.2⟩
    · intro h
      rw [mem_cube_gen] at h
      rw [mem_cube_gen]
      obtain ⟨h1, h2, h3⟩ := h
      have g1 := axisList_neg_mem hside hsp _ h1
      have g2 := axisList_neg_mem hside hsp _ h2
      have g3 := axisList_neg_mem hside hsp _ h3
      rw [neg_neg] at g1 g2 g3
      exact ⟨g1, g2, g3⟩
  · intro hne
    have hsp' : sp ≠ 0 := ne_of_gt hsp
    have hq : (0 : ℚ) < (side / 2) / sp := div_pos (by linarith) hsp
    have hqK : (side / 2) / sp ≤ (⌈(side / 2) / sp⌉ : ℚ) := Int.le_ceil _
    have hne' : (side / 2) / sp ≠ (⌈(side / 2) / sp⌉ : ℚ) := by
      intro h
      apply hne
      refine ⟨⌈(side / 2) / sp⌉, ?_⟩
      have hmul := congrArg (· * sp) h
      simpa [div_mul_cancel₀ _ hsp'] using hmul
    have hqlt : (side / 2) / sp < (⌈(side / 2) / sp⌉ : ℚ) :=
      lt_of_le_of_ne hqK hne'
    have hKsp : side / 2 < (⌈(side / 2) / sp⌉ : ℚ) * sp := by
      have := (div_lt_iff₀ hsp).1 hqlt
      linarith
    have hKlt : (⌈(side / 2) / sp⌉ : ℚ) * sp < side / 2 + sp := by
      have h1 : (⌈(side / 2) / sp⌉ : ℚ) < (side / 2) / sp + 1 :=
        Int.ceil_lt_add_one _
      have h2 : ((side / 2) / sp + 1) * sp = side / 2 + sp := by
        field_simp
        ring
      nlinarith
    have hK0 : (0 : ℚ) ≤ (⌈(side / 2) / sp⌉ : ℚ) := by
      have hcp : (0 : ℤ) < ⌈(side / 2) / sp⌉ := Int.ceil_pos.2 hq
      exact_mod_cast hcp.le
    have hzero : (0 : ℚ) ∈ axisList side sp := by
      rw [mem_axisList hside hsp]
      refine ⟨0, by norm_num, ?_⟩
      simp
      positivity
    refine ⟨((⌈(side / 2) / sp⌉ : ℚ) * sp, 0, 0), ?_, hKsp, hKlt⟩
    rw [mem_cube_gen]
    refine ⟨?_, hzero, hzero⟩
    rw [mem_axisList hside hsp]
    refine ⟨⌈(side / 2) / sp⌉, rfl, ?_⟩
    rw [abs_of_nonneg (mul_nonneg hK0 hsp.le)]
    exact hKlt

/-- Witness for C9 at `side = 10`, `spacing = 4`: the axis overshoots to 8
(beyond `side/2 = 5`, by less than the spacing), `(8, 0, 0)` is emitted, and
the point set is negation-symmetric. -/
theorem cube_gen_symmetry_witness :
    (0 : ℚ) < 10 ∧ (0 : ℚ) < 4 ∧
      axisList 10 4 = [0, 4, 8, -8, -4] ∧
      (((8 : ℚ), 0, 0) : Point3) ∈ cube_gen 10 4 ∧
      (∀ p : Point3, p ∈ cube_gen 10 4 ↔
        ((-p.1, -p.2.1, -p.2.2) : Point3) ∈ cube_gen 10 4) := by
  refine ⟨by norm_num, by norm_num, by with_unfolding_all decide, ?_,
    (cube_gen_symmetry 10 4 (by norm_num) (by norm_num)).2.1⟩
  with_unfolding_all decide

/-- Witness for C10: a resumed run (`n = 3`, `R = 1`, `m = 2`) over a file
that previously held a record; the result has one header and no record for
the skipped index 0. -/
theorem resumed_run_file_witness :
    0 < 2 ∧
      runFileRows [FileRow.record Rec.ref] 5 3 1 2 =
        [FileRow.header 5, FileRow.record Rec.ref,
         FileRow.record (Rec.sample 1), FileRow.record Rec.ref,
         FileRow.record (Rec.sample 2), FileRow.record Rec.ref] ∧
      FileRow.record (Rec.sample 0) ∉ runFileRows [FileRow.record Rec.ref] 5 3 1 2 := by
  have h := resumed_run_file [FileRow.record Rec.ref] 5 3 1 2 (by decide)
  refine ⟨by decide, ?_, h.2.2 0 (by decide)⟩
  rw [h.1, scanRecs_eq]
  decide

end B0
